import Mathlib

/-!
Verification of the streaming display and interruption engine of the
mentra-agui-client repository.

Text is modelled as `List Char` (one entry per UTF-16 code unit of the
JavaScript strings; all characters appearing in the claims are in the BMP,
where the two notions coincide).  Each definition is a direct translation
of the corresponding TypeScript function, with the source file and line
range recorded in its doc comment.
-/

/-- JavaScript strings, modelled as lists of characters. -/
abbrev Str := List Char

namespace TextWrapper

/-- The inner `while` loop of `wrapText` (src/src/utils/textWrapper.ts,
lines 34-39): repeatedly splits off `maxLength`-sized fragments from a word
that is longer than `maxLength`, returning the pushed fragments and the
final remainder (`currentLine = remainingWord`).  The source loop does not
terminate when `maxLength = 0`; the guard `0 < maxLength` makes the Lean
function total, and every claim about it assumes a positive width. -/
def hardSplit (maxLength : Nat) (word : Str) : List Str × Str :=
  if _h : maxLength < word.length ∧ 0 < maxLength then
    let r := hardSplit maxLength (word.drop maxLength)
    (word.take maxLength :: r.1, r.2)
  else ([], word)
termination_by word.length
decreasing_by simp only [List.length_drop]; omega

/-- One step of the word-packing loop of `wrapText`
(src/src/utils/textWrapper.ts, lines 24-47).  The accumulator carries the
`wrappedLines` pushed so far and the `currentLine`. -/
def processWord (maxLength : Nat) (acc : List Str × Str) (word : Str) :
    List Str × Str :=
  let lines := acc.1
  let cur := acc.2
  if maxLength < cur.length + word.length + (if 0 < cur.length then 1 else 0) then
    let lines1 := if 0 < cur.length then lines ++ [cur] else lines
    if maxLength < word.length then
      let r := hardSplit maxLength word
      (lines1 ++ r.1, r.2)
    else (lines1, word)
  else
    (lines, if 0 < cur.length then cur ++ [' '] ++ word else word)

/-- Processing of one input line by `wrapText`
(src/src/utils/textWrapper.ts, lines 14-53): a line that fits is kept
as-is, otherwise it is split into words on single spaces, the words are
packed greedily, and a nonempty final `currentLine` is pushed. -/
def wrapLine (maxLength : Nat) (line : Str) : List Str :=
  if line.length ≤ maxLength then [line]
  else
    let r := (line.splitOn ' ').foldl (processWord maxLength) ([], [])
    if 0 < r.2.length then r.1 ++ [r.2] else r.1

/-- The `wrappedLines` array built by `wrapText`
(src/src/utils/textWrapper.ts, lines 10-53): the input is split on
newlines and each line is processed in order into the shared array. -/
def wrapLines (text : Str) (maxLength : Nat) : List Str :=
  ((text.splitOn '\n').map (wrapLine maxLength)).flatten

/-- `wrapText` (src/src/utils/textWrapper.ts, lines 5-56): returns
`wrappedLines.join('\n')`. -/
def wrapText (text : Str) (maxLength : Nat) : Str :=
  ['\n'].intercalate (wrapLines text maxLength)

/-- `splitIntoLines` (src/src/utils/textWrapper.ts, lines 61-63):
`text.split('\n')`; the `filter(line => line !== undefined)` of the source
never removes anything. -/
def splitIntoLines (text : Str) : List Str :=
  text.splitOn '\n'

end TextWrapper

namespace TextDisplayManager

/-- `occursAt needle hay i`: the string `needle` occurs in `hay` starting at
index `i` (the match fits inside `hay`), as used by JavaScript
`String.prototype.lastIndexOf`. -/
def occursAt (needle hay : Str) (i : Nat) : Prop :=
  (hay.drop i).take needle.length = needle ∧ i + needle.length ≤ hay.length

instance (needle hay : Str) (i : Nat) : Decidable (occursAt needle hay i) := by
  unfold occursAt; infer_instance

/-- JavaScript `hay.lastIndexOf(needle)` for a nonempty needle: the largest
start index of an occurrence, or `none` (`-1` in the source) when there is
no occurrence. -/
def lastIndexOf (hay needle : Str) : Option Nat :=
  if (List.range (hay.length + 1)).any (fun i => decide (occursAt needle hay i)) then
    some (Nat.findGreatest (fun i => occursAt needle hay i) hay.length)
  else none

/-- The ordered break-point marker list of `extractProcessableText`
(src/src/services/textDisplayManager.ts, line 119). -/
def breakPoints : List Str := [['.', ' '], ['!', ' '], ['?', ' '], ['\n'], [',', ' ']]

/-- One iteration of the `for (const breakPoint of breakPoints)` loop
(src/src/services/textDisplayManager.ts, lines 122-127): `cur` is the
running `lastBreakIndex`, with `none` standing for the initial `-1`;
the source compares the new occurrence's start index with the stored
end index and stores `index + breakPoint.length - 1` when larger. -/
def bpStep (buf : Str) (cur : Option Nat) (bp : Str) : Option Nat :=
  match lastIndexOf buf bp with
  | none => cur
  | some i =>
    match cur with
    | none => some (i + bp.length - 1)
    | some c => if c < i then some (i + bp.length - 1) else cur

/-- The final `lastBreakIndex` computed by `extractProcessableText`
(src/src/services/textDisplayManager.ts, lines 120-127). -/
def lastBreakIndex (buf : Str) : Option Nat :=
  breakPoints.foldl (bpStep buf) none

/-- `extractProcessableText` (src/src/services/textDisplayManager.ts,
lines 106-144), as a pure function from the buffer to the pair
(processable text, new buffer).  The source mutates `state.lineBuffer`;
here the second component is the buffer left behind (unchanged when
nothing is extracted). -/
def extractProcessableText (smart : Bool) (charsPerLine : Nat) (buf : Str) :
    Str × Str :=
  if smart = false then
    if 0 < buf.length then (buf, []) else ([], buf)
  else
    match lastBreakIndex buf with
    | some e => (buf.take (e + 1), buf.drop (e + 1))
    | none =>
      if charsPerLine * 2 < buf.length then (buf, []) else ([], buf)

/-- Whitespace characters removed by JavaScript `String.prototype.trim`:
the ECMAScript WhiteSpace productions (TAB, VT, FF, SP, NBSP, ZWNBSP and
every Unicode Space_Separator character: U+1680, U+2000..U+200A, U+202F,
U+205F, U+3000) together with the LineTerminator productions (LF, CR,
U+2028, U+2029). -/
def isJsWhitespace (c : Char) : Bool :=
  c.toNat = 0x9 ∨ c.toNat = 0xA ∨ c.toNat = 0xB ∨ c.toNat = 0xC ∨
  c.toNat = 0xD ∨ c.toNat = 0x20 ∨ c.toNat = 0xA0 ∨ c.toNat = 0x1680 ∨
  (0x2000 ≤ c.toNat ∧ c.toNat ≤ 0x200A) ∨ c.toNat = 0x2028 ∨
  c.toNat = 0x2029 ∨ c.toNat = 0x202F ∨ c.toNat = 0x205F ∨
  c.toNat = 0x3000 ∨ c.toNat = 0xFEFF

/-- JavaScript `s.trim()`. -/
def jsTrim (s : Str) : Str :=
  ((s.dropWhile isJsWhitespace).reverse.dropWhile isJsWhitespace).reverse

/-- The per-session `DisplayState` record
(src/src/services/textDisplayManager.ts, lines 5-14).  `displayInterval`
records whether a `setTimeout` tick is currently scheduled (`some handle`
in the source). -/
structure DisplayState where
  lines : List Str
  currentLinePosition : Nat
  displayInterval : Bool
  isDisplaying : Bool
  isPaused : Bool
  lineBuffer : Str
  messageComplete : Bool
deriving DecidableEq, Repr

/-- The per-session settings read from the `AppSession`
(src/src/services/textDisplayManager.ts, lines 50-66 and 26): line width,
the smart-wrapping flag, and the window height `maxLines`. -/
structure Config where
  charsPerLine : Nat
  smartWrapping : Bool
  maxLines : Nat
deriving DecidableEq, Repr

/-- The state produced by `initializeSession`
(src/src/services/textDisplayManager.ts, lines 36-44). -/
def initState : DisplayState :=
  { lines := [], currentLinePosition := 0, displayInterval := false,
    isDisplaying := false, isPaused := false, lineBuffer := [],
    messageComplete := false }

/-- `stopScrolling` (src/src/services/textDisplayManager.ts, lines
260-276): clears any scheduled tick and marks the session idle. -/
def stopScrolling (s : DisplayState) : DisplayState :=
  { s with displayInterval := false, isDisplaying := false }

/-- One execution of the `scroll` closure of `startScrolling`
(src/src/services/textDisplayManager.ts, lines 187-251).  The returned
Boolean is `true` exactly when the tick called `setTimeout` to schedule
one next tick.  Rendering (`showTextWall`) is output-only and is not part
of the state. -/
def scroll (maxLines : Nat) (s : DisplayState) : DisplayState × Bool :=
  if s.isPaused then
    ({ s with isDisplaying := false }, false)
  else
    let lastLineVisible := s.lines.length ≤ s.currentLinePosition + maxLines
    if s.messageComplete ∧ lastLineVisible then
      (stopScrolling s, false)
    else if s.lines.length ≤ s.currentLinePosition ∧ ¬s.messageComplete then
      ({ s with isDisplaying := false }, false)
    else
      let s1 := if s.currentLinePosition + maxLines < s.lines.length then
          { s with currentLinePosition := s.currentLinePosition + 1 }
        else s
      if ¬lastLineVisible ∨ ¬s.messageComplete then
        ({ s1 with displayInterval := true }, true)
      else (stopScrolling s1, false)

/-- `startScrolling` (src/src/services/textDisplayManager.ts, lines
180-255): a no-op when already displaying, otherwise marks the session
displaying and runs the first tick immediately. -/
def startScrolling (maxLines : Nat) (s : DisplayState) : DisplayState :=
  if s.isDisplaying then s
  else (scroll maxLines { s with isDisplaying := true }).1

/-- `addTextChunk` (src/src/services/textDisplayManager.ts, lines
71-101), returning the updated state together with the processable text
extracted by this call (empty when nothing was extracted). -/
def addTextChunk (cfg : Config) (s : DisplayState) (text : Str) :
    DisplayState × Str :=
  let buf := s.lineBuffer ++ text
  let pr := extractProcessableText cfg.smartWrapping cfg.charsPerLine buf
  let s1 := { s with lineBuffer := pr.2 }
  if 0 < pr.1.length then
    let newLines := TextWrapper.splitIntoLines (TextWrapper.wrapText pr.1 cfg.charsPerLine)
    let s2 := { s1 with lines := s1.lines ++ newLines }
    (if s2.isDisplaying then s2 else startScrolling cfg.maxLines s2, pr.1)
  else (s1, pr.1)

/-- `completeMessage` (src/src/services/textDisplayManager.ts, lines
149-175): flushes the remaining buffer when its trimmed form is nonempty,
appends one blank spacer line, marks the message complete, and restarts
scrolling when idle with unread lines. -/
def completeMessage (cfg : Config) (s : DisplayState) : DisplayState :=
  let s1 :=
    if jsTrim s.lineBuffer = [] then s
    else
      { s with
        lines := s.lines ++
          TextWrapper.splitIntoLines (TextWrapper.wrapText s.lineBuffer cfg.charsPerLine),
        lineBuffer := [] }
  let s2 := { s1 with lines := s1.lines ++ [[]], messageComplete := true }
  if ¬s2.isDisplaying ∧ s2.currentLinePosition < s2.lines.length then
    startScrolling cfg.maxLines s2
  else s2

/-- `interruptDisplay` (src/src/services/textDisplayManager.ts, lines
281-295): stops scrolling and resets the buffered content and flags. -/
def interruptDisplay (s : DisplayState) : DisplayState :=
  { stopScrolling s with
    lines := [], lineBuffer := [], currentLinePosition := 0,
    messageComplete := false, isPaused := false }

/-- `pauseDisplay` (src/src/services/textDisplayManager.ts, lines
300-313). -/
def pauseDisplay (s : DisplayState) : DisplayState :=
  if s.isDisplaying ∧ ¬s.isPaused then
    { s with isPaused := true, displayInterval := false, isDisplaying := false }
  else s

/-- `resumeDisplay` (src/src/services/textDisplayManager.ts, lines
318-331). -/
def resumeDisplay (cfg : Config) (s : DisplayState) : DisplayState :=
  if s.isPaused ∧ ¬s.isDisplaying then
    let s1 := { s with isPaused := false }
    if s1.currentLinePosition < s1.lines.length ∨ ¬s1.messageComplete then
      startScrolling cfg.maxLines s1
    else s1
  else s

/-- The manager's `displayStates` map, keyed by session id. -/
def DMap := String → Option DisplayState

/-- The map after `interruptDisplay(sessionId)`
(src/src/services/textDisplayManager.ts, lines 281-295): a no-op when the
session has no display state. -/
def interruptDisplayM (m : DMap) (sid : String) : DMap :=
  match m sid with
  | none => m
  | some s => fun k => if k = sid then some (interruptDisplay s) else m k

/-- The map after `pauseDisplay(sessionId)`. -/
def pauseDisplayM (m : DMap) (sid : String) : DMap :=
  match m sid with
  | none => m
  | some s => fun k => if k = sid then some (pauseDisplay s) else m k

/-- The map after `resumeDisplay(sessionId, session)`. -/
def resumeDisplayM (cfg : Config) (m : DMap) (sid : String) : DMap :=
  match m sid with
  | none => m
  | some s => fun k => if k = sid then some (resumeDisplay cfg s) else m k

/-- Modelled from the spec: `TextDisplayManager.isDisplayPaused` is called
by `ResponseHandler.isTextDisplayPaused`
(src/src/services/responseHandler.ts, lines 227-229) but its definition is
missing from the sources under src/.  Per the spec's interface list
(`isDisplayPaused` among the display-side operations) it reports the
current pause state of the session's display and modifies nothing:
it returns whether the session has a display state whose `isPaused`
flag is set. -/
def isDisplayPaused (m : DMap) (sid : String) : Bool :=
  match m sid with
  | some s => s.isPaused
  | none => false


/-- The driver for a sequence of `addTextChunk` calls: final state plus
the concatenation, in order, of all extracted processable text. -/
def runChunks (cfg : Config) (s : DisplayState) (ds : List Str) :
    DisplayState × Str :=
  match ds with
  | [] => (s, [])
  | d :: rest =>
    let r1 := addTextChunk cfg s d
    let r2 := runChunks cfg r1.1 rest
    (r2.1, r1.2 ++ r2.2)

/-- The cursor-window invariant: the cursor is at 0, or the window fits
inside the lines. -/
def CursorInv (h : Nat) (s : DisplayState) : Prop :=
  s.currentLinePosition = 0 ∨ s.currentLinePosition + h ≤ s.lines.length

/-- `e` is the (inclusive) end index of some break-point marker occurrence
in `buf`. -/
def IsEnd (buf : Str) (e : Nat) : Prop :=
  ∃ bp ∈ breakPoints, ∃ i, occursAt bp buf i ∧ e + 1 = i + bp.length



/-- The display states reachable for one session with fixed window height
`h`: the state made by `initializeSession` closed under the display
operations (with arbitrary per-call user settings) and scroll ticks. -/
inductive Reach (h : Nat) : DisplayState → Prop where
  | init : Reach h initState
  | chunk (cfg : Config) (d : Str) (hc : cfg.maxLines = h) {s : DisplayState} :
      Reach h s → Reach h (addTextChunk cfg s d).1
  | complete (cfg : Config) (hc : cfg.maxLines = h) {s : DisplayState} :
      Reach h s → Reach h (completeMessage cfg s)
  | pause {s : DisplayState} : Reach h s → Reach h (pauseDisplay s)
  | resume (cfg : Config) (hc : cfg.maxLines = h) {s : DisplayState} :
      Reach h s → Reach h (resumeDisplay cfg s)
  | interrupt {s : DisplayState} : Reach h s → Reach h (interruptDisplay s)
  | tick {s : DisplayState} : Reach h s → Reach h (scroll h s).1

/-- Concrete scrolling display state used by witnesses and
counterexamples: five lines, cursor at 2, actively scrolling with a
pending tick, message not yet complete. -/
def stBusy : DisplayState :=
  { lines := [['a'], ['b'], ['c'], ['d'], ['e']], currentLinePosition := 2,
    displayInterval := true, isDisplaying := true, isPaused := false,
    lineBuffer := ['x'], messageComplete := false }

/-- `stBusy` with the cursor back at 0 (an advancing tick state). -/
def stAdv : DisplayState :=
  { stBusy with currentLinePosition := 0 }

/-- A displayStates map holding `stBusy` under session id "s1". -/
def mBusy : DMap := fun k => if k = "s1" then some stBusy else none

/-- A displayStates map holding a paused state under session id "s1". -/
def mPaused : DMap :=
  fun k =>
    if k = "s1" then some { stBusy with isPaused := true, isDisplaying := false }
    else none

end TextDisplayManager

namespace AgentManager

/-- The closed tagged union of agent-stream events dispatched by
`ResponseHandler.handleAgentEvent` (src/src/services/responseHandler.ts)
and delivered by `AgentManager.processTranscription`
(src/src/services/agentManager.ts, lines 126-152). -/
inductive AgentEvent where
  | textMessageStart (messageId : String)
  | textMessageContent (delta : Str)
  | textMessageEnd
  | toolCallStart
  | toolCallEnd
  | error (message : String)
  | stateSnapshot
  | stateDelta
deriving DecidableEq, Repr

/-- The `next` handler of the run subscription
(src/src/services/agentManager.ts, lines 127-137): the event is passed to
`onEvent` only when `sessionAgent.isInterrupted` is false at delivery
time; the returned list is the sequence of `onEvent` calls this delivery
makes. -/
def onNextEvent (isInterrupted : Bool) (e : AgentEvent) : List AgentEvent :=
  if isInterrupted then [] else [e]

/-- The `error` handler of the run subscription
(src/src/services/agentManager.ts, lines 138-148): a synthetic `ERROR`
event is passed to `onEvent` unconditionally. -/
def onStreamError (message : String) : List AgentEvent :=
  [AgentEvent.error message]

/-- The asynchronous occurrences affecting one run's deliveries:
`interruptSession` setting the `isInterrupted` flag
(src/src/services/agentManager.ts, line 172), a stream `next` delivery,
and a stream `error` delivery. -/
inductive RunAction where
  | interrupt
  | nextEv (e : AgentEvent)
  | errEv (message : String)
deriving DecidableEq, Repr

/-- Effect of one `RunAction` on the pair (isInterrupted flag, events
passed to `onEvent` so far). -/
def runStep (st : Bool × List AgentEvent) (a : RunAction) :
    Bool × List AgentEvent :=
  match a with
  | .interrupt => (true, st.2)
  | .nextEv e => (st.1, st.2 ++ onNextEvent st.1 e)
  | .errEv m => (st.1, st.2 ++ onStreamError m)

/-- A run's delivery trace, starting from the state set up by
`processTranscription` (flag cleared, line 75 of
src/src/services/agentManager.ts; nothing delivered yet). -/
def runTrace (acts : List RunAction) : Bool × List AgentEvent :=
  acts.foldl runStep (false, [])

end AgentManager

namespace ResponseHandler

open TextDisplayManager

/-- `ResponseHandler.isTextDisplayPaused`
(src/src/services/responseHandler.ts, lines 227-229). -/
def isTextDisplayPaused (m : DMap) (sid : String) : Bool :=
  isDisplayPaused m sid

/-- `ResponseHandler.pauseTextDisplay`
(src/src/services/responseHandler.ts, lines 213-215). -/
def pauseTextDisplay (m : DMap) (sid : String) : DMap :=
  pauseDisplayM m sid

/-- `ResponseHandler.resumeTextDisplay`
(src/src/services/responseHandler.ts, lines 220-222). -/
def resumeTextDisplay (cfg : Config) (m : DMap) (sid : String) : DMap :=
  resumeDisplayM cfg m sid

/-- The short-button-press handler of `onSession`
(src/index.ts variant, src/unnamed/part_002, lines 155-180): reads the
current pause state and toggles between resume and pause. -/
def onShortButtonPress (cfg : Config) (m : DMap) (sid : String) : DMap :=
  if isTextDisplayPaused m sid then resumeTextDisplay cfg m sid
  else pauseTextDisplay m sid

end ResponseHandler

namespace TextWrapper

lemma hardSplit_spec (w : Nat) (hw : 0 < w) (word : Str) :
    (∀ f ∈ (hardSplit w word).1, f.length = w) ∧
    (hardSplit w word).2.length ≤ w := by
  generalize hn : word.length = n
  induction n using Nat.strong_induction_on generalizing word with
  | _ n ih =>
    rw [hardSplit]
    split_ifs with h
    · have hlt : (word.drop w).length < n := by
        subst hn; simp only [List.length_drop]; omega
      have hrec := ih (word.drop w).length hlt (word.drop w) rfl
      refine ⟨?_, hrec.2⟩
      intro f hf
      rcases List.mem_cons.1 hf with rfl | hf
      · simp only [List.length_take]; omega
      · exact hrec.1 f hf
    · have hle : ¬ w < word.length := fun hlt => h ⟨hlt, hw⟩
      refine ⟨fun f hf => absurd hf (by simp), ?_⟩
      simpa using Nat.le_of_not_lt hle

lemma hardSplit_rem_pos (w : Nat) (hw : 0 < w) (word : Str)
    (hword : 0 < word.length) :
    0 < (hardSplit w word).2.length := by
  generalize hn : word.length = n
  induction n using Nat.strong_induction_on generalizing word with
  | _ n ih =>
    rw [hardSplit]
    split_ifs with h
    · have hlt : (word.drop w).length < n := by
        subst hn; simp only [List.length_drop]; omega
      exact ih (word.drop w).length hlt (word.drop w)
        (by simp only [List.length_drop]; omega) rfl
    · simpa using hword

lemma processWord_width (w : Nat) (hw : 0 < w) (lines : List Str)
    (cur word : Str)
    (h1 : ∀ l ∈ lines, l.length ≤ w) (h2 : cur.length ≤ w) :
    (∀ l ∈ (processWord w (lines, cur) word).1, l.length ≤ w) ∧
    (processWord w (lines, cur) word).2.length ≤ w := by
  have hfr := hardSplit_spec w hw word
  simp only [processWord]
  split_ifs with hcur hov hlong hov2 hlong2
  · refine ⟨fun l hl => ?_, hfr.2⟩
    rcases List.mem_append.1 hl with hl | hl
    · rcases List.mem_append.1 hl with hl | hl
      · exact h1 l hl
      · rcases List.mem_singleton.1 hl with rfl
        exact h2
    · exact le_of_eq (hfr.1 l hl)
  · refine ⟨fun l hl => ?_, by show word.length ≤ w; omega⟩
    rcases List.mem_append.1 hl with hl | hl
    · exact h1 l hl
    · rcases List.mem_singleton.1 hl with rfl
      exact h2
  · refine ⟨h1, ?_⟩
    simp only [List.length_append, List.length_cons, List.length_nil]
    omega
  · refine ⟨fun l hl => ?_, hfr.2⟩
    rcases List.mem_append.1 hl with hl | hl
    · exact h1 l hl
    · exact le_of_eq (hfr.1 l hl)
  · exact ⟨h1, by show word.length ≤ w; omega⟩
  · exact ⟨h1, by show word.length ≤ w; omega⟩

lemma foldl_processWord_width (w : Nat) (hw : 0 < w) (ws : List Str) :
    ∀ acc : List Str × Str,
    (∀ l ∈ acc.1, l.length ≤ w) → acc.2.length ≤ w →
    (∀ l ∈ (ws.foldl (processWord w) acc).1, l.length ≤ w) ∧
    (ws.foldl (processWord w) acc).2.length ≤ w := by
  induction ws with
  | nil => exact fun acc h1 h2 => ⟨h1, h2⟩
  | cons word rest ih =>
    intro acc h1 h2
    rw [List.foldl_cons]
    obtain ⟨lines, cur⟩ := acc
    have hstep := processWord_width w hw lines cur word h1 h2
    exact ih _ hstep.1 hstep.2

lemma wrapLine_width (w : Nat) (hw : 0 < w) (line : Str) :
    ∀ l ∈ wrapLine w line, l.length ≤ w := by
  intro l hl
  simp only [wrapLine] at hl
  split_ifs at hl with h1 h2
  · rcases List.mem_singleton.1 hl with rfl
    exact h1
  · have hinv := foldl_processWord_width w hw (line.splitOn ' ') ([], [])
      (by intro l hl; cases hl) (by simp)
    rcases List.mem_append.1 hl with hl | hl
    · exact hinv.1 l hl
    · rcases List.mem_singleton.1 hl with rfl
      exact hinv.2
  · have hinv := foldl_processWord_width w hw (line.splitOn ' ') ([], [])
      (by intro l hl; cases hl) (by simp)
    exact hinv.1 l hl

lemma wrapLines_width (w : Nat) (hw : 0 < w) (text : Str) :
    ∀ l ∈ wrapLines text w, l.length ≤ w := by
  intro l hl
  unfold wrapLines at hl
  rcases List.mem_flatten.1 hl with ⟨g, hg, hlg⟩
  rcases List.mem_map.1 hg with ⟨line, _, rfl⟩
  exact wrapLine_width w hw line l hlg

lemma splitOn_of_not_mem {c : Char} {xs : List Char} (h : c ∉ xs) :
    xs.splitOn c = [xs] := by
  unfold List.splitOn
  refine List.splitOnP_eq_single _ _ ?_
  intro x hx hbe
  exact h (by rwa [eq_of_beq hbe] at hx)

lemma wrapLines_single_long_word (w : Nat) (hw : 0 < w) (word : Str)
    (hsp : ' ' ∉ word) (hnl : '\n' ∉ word) (hlong : w < word.length) :
    wrapLines word w = (hardSplit w word).1 ++ [(hardSplit w word).2] := by
  have hrem : 0 < (hardSplit w word).2.length :=
    hardSplit_rem_pos w hw word (by omega)
  unfold wrapLines
  rw [splitOn_of_not_mem hnl]
  simp only [List.map_cons, List.map_nil, List.flatten_cons, List.flatten_nil,
    List.append_nil]
  simp only [wrapLine]
  rw [if_neg (by omega : ¬ word.length ≤ w)]
  rw [splitOn_of_not_mem hsp]
  simp only [List.foldl_cons, List.foldl_nil]
  simp only [processWord, List.length_nil, Nat.lt_irrefl, if_false, ite_false,
    Nat.add_zero, Nat.zero_add]
  rw [if_pos hlong, if_pos hlong]
  simp only [List.nil_append]
  rw [if_pos hrem]


lemma splitOnP_chars {p : Char → Bool} (xs : List Char) :
    ∀ l ∈ xs.splitOnP p, ∀ c ∈ l, p c = false ∧ c ∈ xs := by
  induction xs with
  | nil =>
    intro l hl c hc
    rw [List.splitOnP_nil] at hl
    rcases List.mem_singleton.1 hl with rfl
    cases hc
  | cons a xs ih =>
    intro l hl c hc
    rw [List.splitOnP_cons] at hl
    by_cases hpa : p a
    · rw [if_pos hpa] at hl
      rcases List.mem_cons.1 hl with rfl | hl
      · cases hc
      · have h := ih l hl c hc
        exact ⟨h.1, List.mem_cons_of_mem _ h.2⟩
    · rw [if_neg hpa] at hl
      rcases hsp : xs.splitOnP p with _ | ⟨hd, tl⟩
      · exact absurd hsp (List.splitOnP_ne_nil p xs)
      · rw [hsp] at hl
        simp only [List.modifyHead] at hl
        rcases List.mem_cons.1 hl with rfl | hl
        · rcases List.mem_cons.1 hc with rfl | hc
          · exact ⟨Bool.eq_false_iff.2 hpa, List.mem_cons_self _ _⟩
          · have h := ih hd (by rw [hsp]; exact List.mem_cons_self _ _) c hc
            exact ⟨h.1, List.mem_cons_of_mem _ h.2⟩
        · have h := ih l (by rw [hsp]; exact List.mem_cons_of_mem _ hl) c hc
          exact ⟨h.1, List.mem_cons_of_mem _ h.2⟩

lemma splitOn_chars {x : Char} {xs l : List Char} (hl : l ∈ xs.splitOn x) :
    ∀ c ∈ l, c ≠ x ∧ c ∈ xs := by
  intro c hc
  have h := splitOnP_chars (p := (· == x)) xs l hl c hc
  refine ⟨?_, h.2⟩
  intro hcx
  subst hcx
  simp at h

lemma hardSplit_chars (w : Nat) (word : Str) :
    (∀ f ∈ (hardSplit w word).1, ∀ c ∈ f, c ∈ word) ∧
    (∀ c ∈ (hardSplit w word).2, c ∈ word) := by
  generalize hn : word.length = n
  induction n using Nat.strong_induction_on generalizing word with
  | _ n ih =>
    rw [hardSplit]
    split_ifs with h
    · have hlt : (word.drop w).length < n := by
        subst hn; simp only [List.length_drop]; omega
      have hrec := ih (word.drop w).length hlt (word.drop w) rfl
      constructor
      · intro f hf c hc
        rcases List.mem_cons.1 hf with rfl | hf
        · exact List.take_subset _ _ hc
        · exact List.drop_subset _ _ (hrec.1 f hf c hc)
      · intro c hc
        exact List.drop_subset _ _ (hrec.2 c hc)
    · exact ⟨fun f hf => absurd hf (by simp), fun c hc => hc⟩

lemma processWord_chars (w : Nat) (P : Char → Prop) (hP : P ' ')
    (lines : List Str) (cur word : Str)
    (h1 : ∀ l ∈ lines, ∀ c ∈ l, P c) (h2 : ∀ c ∈ cur, P c)
    (h3 : ∀ c ∈ word, P c) :
    (∀ l ∈ (processWord w (lines, cur) word).1, ∀ c ∈ l, P c) ∧
    (∀ c ∈ (processWord w (lines, cur) word).2, P c) := by
  have hhs := hardSplit_chars w word
  simp only [processWord]
  split_ifs with hcur hov hlong hov2 hlong2
  · refine ⟨fun l hl c hc => ?_, fun c hc => h3 c (hhs.2 c hc)⟩
    rcases List.mem_append.1 hl with hl | hl
    · rcases List.mem_append.1 hl with hl | hl
      · exact h1 l hl c hc
      · rcases List.mem_singleton.1 hl with rfl
        exact h2 c hc
    · exact h3 c (hhs.1 l hl c hc)
  · refine ⟨fun l hl c hc => ?_, h3⟩
    rcases List.mem_append.1 hl with hl | hl
    · exact h1 l hl c hc
    · rcases List.mem_singleton.1 hl with rfl
      exact h2 c hc
  · refine ⟨h1, fun c hc => ?_⟩
    rcases List.mem_append.1 hc with hc | hc
    · rcases List.mem_append.1 hc with hc | hc
      · exact h2 c hc
      · rcases List.mem_singleton.1 hc with rfl
        exact hP
    · exact h3 c hc
  · refine ⟨fun l hl c hc => ?_, fun c hc => h3 c (hhs.2 c hc)⟩
    rcases List.mem_append.1 hl with hl | hl
    · exact h1 l hl c hc
    · exact h3 c (hhs.1 l hl c hc)
  · exact ⟨h1, h3⟩
  · exact ⟨h1, h3⟩

lemma foldl_processWord_chars (w : Nat) (P : Char → Prop) (hP : P ' ')
    (ws : List Str) (hws : ∀ word ∈ ws, ∀ c ∈ word, P c) :
    ∀ acc : List Str × Str,
    (∀ l ∈ acc.1, ∀ c ∈ l, P c) → (∀ c ∈ acc.2, P c) →
    (∀ l ∈ (ws.foldl (processWord w) acc).1, ∀ c ∈ l, P c) ∧
    (∀ c ∈ (ws.foldl (processWord w) acc).2, P c) := by
  induction ws with
  | nil => exact fun acc h1 h2 => ⟨h1, h2⟩
  | cons word rest ih =>
    intro acc h1 h2
    rw [List.foldl_cons]
    obtain ⟨lines, cur⟩ := acc
    have hstep := processWord_chars w P hP lines cur word h1 h2
      (hws word (List.mem_cons_self _ _))
    exact ih (fun word hw => hws word (List.mem_cons_of_mem _ hw)) _ hstep.1 hstep.2

lemma wrapLine_chars (w : Nat) (line : Str) :
    ∀ l ∈ wrapLine w line, ∀ c ∈ l, c ∈ line ∨ c = ' ' := by
  intro l hl c hc
  simp only [wrapLine] at hl
  split_ifs at hl with h1 h2
  · rcases List.mem_singleton.1 hl with rfl
    exact Or.inl hc
  · have hinv := foldl_processWord_chars w (fun c => c ∈ line ∨ c = ' ')
      (Or.inr rfl) (line.splitOn ' ')
      (fun word hw c hc => Or.inl (splitOn_chars hw c hc).2)
      ([], []) (by intro l hl; cases hl) (by intro c hc; cases hc)
    rcases List.mem_append.1 hl with hl | hl
    · exact hinv.1 l hl c hc
    · rcases List.mem_singleton.1 hl with rfl
      exact hinv.2 c hc
  · have hinv := foldl_processWord_chars w (fun c => c ∈ line ∨ c = ' ')
      (Or.inr rfl) (line.splitOn ' ')
      (fun word hw c hc => Or.inl (splitOn_chars hw c hc).2)
      ([], []) (by intro l hl; cases hl) (by intro c hc; cases hc)
    exact hinv.1 l hl c hc

lemma wrapLines_noNewline (w : Nat) (text : Str) :
    ∀ l ∈ wrapLines text w, '\n' ∉ l := by
  intro l hl hnl
  unfold wrapLines at hl
  rcases List.mem_flatten.1 hl with ⟨g, hg, hlg⟩
  rcases List.mem_map.1 hg with ⟨line, hline, rfl⟩
  rcases wrapLine_chars w line l hlg '\n' hnl with hc | hc
  · exact (splitOn_chars hline '\n' hc).1 rfl
  · cases hc

lemma flatten_map_singleton (L : List Str) :
    (L.map (fun l => [l])).flatten = L := by
  induction L with
  | nil => rfl
  | cons a L ih => simp [ih]


lemma wrapLines_wrapText_ne_nil (w : Nat) (hw : 0 < w) (t : Str)
    (hne : wrapLines t w ≠ []) :
    wrapLines (wrapText t w) w = wrapLines t w := by
  have hnn : ∀ l ∈ wrapLines t w, '\n' ∉ l := wrapLines_noNewline w t
  have hlen : ∀ l ∈ wrapLines t w, l.length ≤ w := wrapLines_width w hw t
  have hsplit : (wrapText t w).splitOn '\n' = wrapLines t w := by
    rw [wrapText]
    exact List.splitOn_intercalate (wrapLines t w) '\n' hnn hne
  rw [wrapLines, hsplit]
  have hmap : (wrapLines t w).map (wrapLine w) = (wrapLines t w).map (fun l => [l]) := by
    apply List.map_congr_left
    intro l hl
    unfold wrapLine
    rw [if_pos (hlen l hl)]
  rw [hmap, flatten_map_singleton]


end TextWrapper

namespace TextDisplayManager

lemma scroll_fixed (h : Nat) (s : DisplayState) :
    (scroll h s).1.lines = s.lines ∧
    ((scroll h s).1.currentLinePosition = s.currentLinePosition ∨
     ((scroll h s).1.currentLinePosition = s.currentLinePosition + 1 ∧
      s.currentLinePosition + h < s.lines.length)) := by
  by_cases hadv : s.currentLinePosition + h < s.lines.length <;>
    simp only [scroll, stopScrolling, hadv, if_true, if_false, ite_true, ite_false] <;>
    split_ifs <;> simp_all

lemma scroll_cursorInv (h : Nat) (s : DisplayState) (hs : CursorInv h s) :
    CursorInv h (scroll h s).1 := by
  obtain ⟨hl, hp⟩ := scroll_fixed h s
  unfold CursorInv at *
  rw [hl]
  rcases hp with hp | ⟨hp, hb⟩ <;> omega

lemma startScrolling_cursorInv (h : Nat) (s : DisplayState) (hs : CursorInv h s) :
    CursorInv h (startScrolling h s) := by
  unfold startScrolling
  split_ifs with h1
  · exact hs
  · exact scroll_cursorInv h _ (by unfold CursorInv at *; simpa using hs)

lemma append_lines_cursorInv (h : Nat) (s : DisplayState) (L : List Str)
    (hs : CursorInv h s) :
    CursorInv h { s with lines := s.lines ++ L } := by
  unfold CursorInv at *
  simp only [List.length_append]
  omega

lemma addTextChunk_cursorInv (cfg : Config) (s : DisplayState) (d : Str)
    (hs : CursorInv cfg.maxLines s) :
    CursorInv cfg.maxLines (addTextChunk cfg s d).1 := by
  have h1 : CursorInv cfg.maxLines { s with lineBuffer :=
      (extractProcessableText cfg.smartWrapping cfg.charsPerLine (s.lineBuffer ++ d)).2 } := hs
  simp only [addTextChunk]
  split_ifs with hp hd
  · exact append_lines_cursorInv _ _ _ h1
  · exact startScrolling_cursorInv _ _ (append_lines_cursorInv _ _ _ h1)
  · exact h1

lemma completeMessage_cursorInv (cfg : Config) (s : DisplayState)
    (hs : CursorInv cfg.maxLines s) :
    CursorInv cfg.maxLines (completeMessage cfg s) := by
  simp only [completeMessage]
  split_ifs with h1 h2 h3
  · exact startScrolling_cursorInv _ _ (append_lines_cursorInv _ _ _ hs)
  · exact append_lines_cursorInv _ _ _ hs
  · exact startScrolling_cursorInv _ _
      (append_lines_cursorInv _ _ _ (append_lines_cursorInv _ _ _ hs))
  · exact append_lines_cursorInv _ _ _ (append_lines_cursorInv _ _ _ hs)

lemma pauseDisplay_cursorInv (h : Nat) (s : DisplayState) (hs : CursorInv h s) :
    CursorInv h (pauseDisplay s) := by
  unfold pauseDisplay CursorInv at *
  split_ifs <;> simp_all

lemma resumeDisplay_cursorInv (cfg : Config) (s : DisplayState)
    (hs : CursorInv cfg.maxLines s) :
    CursorInv cfg.maxLines (resumeDisplay cfg s) := by
  have h1 : CursorInv cfg.maxLines { s with isPaused := false } := hs
  simp only [resumeDisplay]
  split_ifs with ha hb
  · exact startScrolling_cursorInv _ _ h1
  · exact h1
  · exact hs

lemma interruptDisplay_cursorInv (h : Nat) (s : DisplayState) :
    CursorInv h (interruptDisplay s) := by
  unfold interruptDisplay stopScrolling CursorInv
  simp


lemma reach_cursorInv (h : Nat) (s : DisplayState) (hr : Reach h s) :
    CursorInv h s := by
  induction hr with
  | init => exact Or.inl rfl
  | chunk cfg d hc _ ih => exact hc ▸ addTextChunk_cursorInv cfg _ d (hc ▸ ih)
  | complete cfg hc _ ih => exact hc ▸ completeMessage_cursorInv cfg _ (hc ▸ ih)
  | pause _ ih => exact pauseDisplay_cursorInv h _ ih
  | resume cfg hc _ ih => exact hc ▸ resumeDisplay_cursorInv cfg _ (hc ▸ ih)
  | interrupt _ _ => exact interruptDisplay_cursorInv h _
  | tick _ ih => exact scroll_cursorInv h _ ih

lemma extract_conserve (smart : Bool) (w : Nat) (buf : Str) :
    (extractProcessableText smart w buf).1 ++ (extractProcessableText smart w buf).2 = buf := by
  unfold extractProcessableText
  by_cases h1 : smart = false
  · rw [if_pos h1]
    split_ifs <;> simp
  · rw [if_neg h1]
    rcases hlb : lastBreakIndex buf with _ | e
    · simp only [hlb]
      split_ifs <;> simp
    · simp only [hlb, List.take_append_drop]

lemma scroll_keeps (h : Nat) (s : DisplayState) :
    (scroll h s).1.lineBuffer = s.lineBuffer ∧
    (scroll h s).1.messageComplete = s.messageComplete := by
  by_cases hadv : s.currentLinePosition + h < s.lines.length <;>
    simp only [scroll, stopScrolling, hadv, if_true, if_false, ite_true, ite_false] <;>
    split_ifs <;> simp_all

lemma startScrolling_keeps (h : Nat) (s : DisplayState) :
    (startScrolling h s).lineBuffer = s.lineBuffer ∧
    (startScrolling h s).lines = s.lines ∧
    (startScrolling h s).messageComplete = s.messageComplete := by
  unfold startScrolling
  split_ifs with h1
  · exact ⟨rfl, rfl, rfl⟩
  · exact ⟨(scroll_keeps h _).1, (scroll_fixed h _).1, (scroll_keeps h _).2⟩

lemma addTextChunk_conserve (cfg : Config) (s : DisplayState) (d : Str) :
    (addTextChunk cfg s d).2 ++ (addTextChunk cfg s d).1.lineBuffer =
      s.lineBuffer ++ d := by
  have hx := extract_conserve cfg.smartWrapping cfg.charsPerLine (s.lineBuffer ++ d)
  simp only [addTextChunk]
  split_ifs with h1 h2
  · simpa using hx
  · rw [(startScrolling_keeps cfg.maxLines _).1]
    simpa using hx
  · simpa using hx

lemma runChunks_conserve (cfg : Config) (ds : List Str) :
    ∀ s : DisplayState,
    (runChunks cfg s ds).2 ++ (runChunks cfg s ds).1.lineBuffer =
      s.lineBuffer ++ ds.flatten := by
  induction ds with
  | nil => intro s; simp [runChunks]
  | cons d rest ih =>
    intro s
    simp only [runChunks, List.flatten_cons]
    rw [List.append_assoc, ih (addTextChunk cfg s d).1, ← List.append_assoc,
      addTextChunk_conserve cfg s d, List.append_assoc]

lemma completeMessage_spec (cfg : Config) (s : DisplayState)
    (h : s.lineBuffer = [] ∨ jsTrim s.lineBuffer ≠ []) :
    (completeMessage cfg s).lineBuffer = [] ∧
    (completeMessage cfg s).lines =
      s.lines ++
        (if s.lineBuffer = [] then []
         else TextWrapper.splitIntoLines
           (TextWrapper.wrapText s.lineBuffer cfg.charsPerLine)) ++ [[]] ∧
    (completeMessage cfg s).messageComplete = true := by
  by_cases hb : jsTrim s.lineBuffer = []
  · have hbuf : s.lineBuffer = [] := by
      rcases h with h | h
      · exact h
      · exact absurd hb h
    rw [if_pos hbuf]
    simp only [completeMessage, if_pos hb]
    split_ifs with h1
    · refine ⟨?_, ?_, ?_⟩
      · rw [(startScrolling_keeps cfg.maxLines _).1]
        exact hbuf
      · rw [(startScrolling_keeps cfg.maxLines _).2.1]
        simp
      · rw [(startScrolling_keeps cfg.maxLines _).2.2]
    · exact ⟨hbuf, by simp, rfl⟩
  · have hbuf : s.lineBuffer ≠ [] := by
      intro hc
      rw [hc] at hb
      exact hb rfl
    rw [if_neg hbuf]
    simp only [completeMessage, if_neg hb]
    split_ifs with h1
    · refine ⟨?_, ?_, ?_⟩
      · rw [(startScrolling_keeps cfg.maxLines _).1]
      · rw [(startScrolling_keeps cfg.maxLines _).2.1]
      · rw [(startScrolling_keeps cfg.maxLines _).2.2]
    · exact ⟨rfl, rfl, rfl⟩


lemma occursAt_getElem {bp buf : Str} {i : Nat} (h : occursAt bp buf i)
    {k : Nat} (hk : k < bp.length) : buf[i + k]? = bp[k]? := by
  obtain ⟨htake, hfit⟩ := h
  have h1 : ((buf.drop i).take bp.length)[k]? = bp[k]? := by rw [htake]
  rw [List.getElem?_take, if_pos hk, List.getElem?_drop] at h1
  exact h1

lemma lastIndexOf_some {buf bp : Str} {i : Nat}
    (h : lastIndexOf buf bp = some i) :
    occursAt bp buf i ∧ ∀ j, occursAt bp buf j → j ≤ i := by
  unfold lastIndexOf at h
  split_ifs at h with hany
  injection h with h
  subst h
  rw [List.any_eq_true] at hany
  obtain ⟨j, hjmem, hj⟩ := hany
  rw [decide_eq_true_eq] at hj
  have hjle : j ≤ buf.length := by
    have := List.mem_range.1 hjmem
    omega
  constructor
  · exact Nat.findGreatest_spec hjle hj
  · intro j' hj'
    have hj'le : j' ≤ buf.length := by
      have := hj'.2
      omega
    exact Nat.le_findGreatest hj'le hj'

lemma lastIndexOf_none {buf bp : Str}
    (h : lastIndexOf buf bp = none) : ∀ j, ¬ occursAt bp buf j := by
  unfold lastIndexOf at h
  split_ifs at h with hany
  intro j hj
  refine hany (List.any_eq_true.2 ⟨j, List.mem_range.2 ?_, decide_eq_true hj⟩)
  have := hj.2
  omega

lemma occursAt_exists_lastIndexOf {buf bp : Str} {j : Nat}
    (h : occursAt bp buf j) : ∃ i, lastIndexOf buf bp = some i ∧ j ≤ i := by
  cases hli : lastIndexOf buf bp with
  | none => exact absurd h (lastIndexOf_none hli j)
  | some i => exact ⟨i, rfl, (lastIndexOf_some hli).2 j h⟩

lemma breakPoints_len_pos : ∀ bp ∈ breakPoints, 0 < bp.length := by decide

lemma breakPoints_len_le : ∀ bp ∈ breakPoints, bp.length ≤ 2 := by decide

lemma isEnd_char {buf : Str} {e : Nat} (h : IsEnd buf e) :
    buf[e]? = some ' ' ∨ buf[e]? = some '\n' := by
  obtain ⟨bp, hbp, i, hocc, he⟩ := h
  have hlen := breakPoints_len_pos bp hbp
  have hk : bp.length - 1 < bp.length := by omega
  have hc := occursAt_getElem hocc hk
  have he' : e = i + (bp.length - 1) := by omega
  rw [← he'] at hc
  simp only [breakPoints, List.mem_cons, List.not_mem_nil, or_false] at hbp
  rcases hbp with rfl | rfl | rfl | rfl | rfl <;> simp at hc <;>
    first
      | exact Or.inl hc
      | exact Or.inr hc

lemma isEnd_start_ne {buf : Str} {e : Nat} (hend : IsEnd buf e)
    {bp : Str} (hbp : bp ∈ breakPoints) (hlen2 : bp.length = 2)
    (hocc : occursAt bp buf e) : False := by
  have h0 : buf[e + 0]? = bp[0]? := occursAt_getElem hocc (by omega)
  rw [Nat.add_zero] at h0
  have hc := isEnd_char hend
  simp only [breakPoints, List.mem_cons, List.not_mem_nil, or_false] at hbp
  rcases hbp with rfl | rfl | rfl | rfl | rfl <;>
    simp at h0 hlen2 <;> rcases hc with hc | hc <;> rw [h0] at hc <;> simp at hc

lemma bpStep_spec (buf : Str) (cur : Option Nat) (m : Str)
    (hm : m ∈ breakPoints) (hcur : ∀ c, cur = some c → IsEnd buf c) :
    (∀ c, bpStep buf cur m = some c → IsEnd buf c) ∧
    (∀ c, cur = some c → ∃ r, bpStep buf cur m = some r ∧ c ≤ r) ∧
    (∀ i0, occursAt m buf i0 →
      ∃ r, bpStep buf cur m = some r ∧ i0 + m.length ≤ r + 1) := by
  have hlp := breakPoints_len_pos m hm
  have hl2 := breakPoints_len_le m hm
  cases hli : lastIndexOf buf m with
  | none =>
    simp only [bpStep, hli]
    refine ⟨hcur, fun c hc => ⟨c, hc, le_rfl⟩, ?_⟩
    intro i0 h0
    exact absurd h0 (lastIndexOf_none hli i0)
  | some i =>
    have hocc := (lastIndexOf_some hli).1
    have hmax := (lastIndexOf_some hli).2
    have hiEnd : IsEnd buf (i + m.length - 1) :=
      ⟨m, hm, i, hocc, by omega⟩
    cases cur with
    | none =>
      simp only [bpStep, hli]
      refine ⟨?_, ?_, ?_⟩
      · intro c hc
        injection hc with hc
        subst hc
        exact hiEnd
      · intro c hc
        cases hc
      · intro i0 h0
        refine ⟨i + m.length - 1, rfl, ?_⟩
        have := hmax i0 h0
        omega
    | some c =>
      by_cases hci : c < i
      · simp only [bpStep, hli, if_pos hci]
        refine ⟨?_, ?_, ?_⟩
        · intro c' hc'
          injection hc' with hc'
          subst hc'
          exact hiEnd
        · intro c' hc'
          injection hc' with hc'
          subst hc'
          exact ⟨i + m.length - 1, rfl, by omega⟩
        · intro i0 h0
          refine ⟨i + m.length - 1, rfl, ?_⟩
          have := hmax i0 h0
          omega
      · simp only [bpStep, hli, if_neg hci]
        have hend := hcur c rfl
        refine ⟨?_, ?_, ?_⟩
        · intro c' hc'
          injection hc' with hc'
          subst hc'
          exact hend
        · intro c' hc'
          injection hc' with hc'
          subst hc'
          exact ⟨c, rfl, le_rfl⟩
        · intro i0 h0
          have hi0 : i0 ≤ i := hmax i0 h0
          have hic : i ≤ c := Nat.le_of_not_lt hci
          refine ⟨c, rfl, ?_⟩
          rcases (by omega : m.length = 1 ∨ m.length = 2) with h1 | h2
          · omega
          · rcases Nat.lt_or_ge i0 c with hlt | hge
            · omega
            · have hieq : i0 = c := by omega
              subst hieq
              exact (isEnd_start_ne hend hm h2 h0).elim

lemma bpFoldAux_spec (buf : Str) (ms : List Str) :
    ∀ (cur : Option Nat),
    (∀ m ∈ ms, m ∈ breakPoints) →
    (∀ c, cur = some c → IsEnd buf c) →
    ((∀ c, ms.foldl (bpStep buf) cur = some c → IsEnd buf c) ∧
     (∀ c, cur = some c → ∃ r, ms.foldl (bpStep buf) cur = some r ∧ c ≤ r) ∧
     (∀ m ∈ ms, ∀ i, occursAt m buf i →
       ∃ r, ms.foldl (bpStep buf) cur = some r ∧ i + m.length ≤ r + 1)) := by
  induction ms with
  | nil =>
    intro cur hms hcur
    exact ⟨hcur, fun c hc => ⟨c, hc, le_rfl⟩, by simp⟩
  | cons m ms ih =>
    intro cur hms hcur
    have hm : m ∈ breakPoints := hms m (List.mem_cons_self _ _)
    have hstep := bpStep_spec buf cur m hm hcur
    rw [List.foldl_cons]
    have hih := ih (bpStep buf cur m)
      (fun m' hm' => hms m' (List.mem_cons_of_mem _ hm')) hstep.1
    refine ⟨hih.1, ?_, ?_⟩
    · intro c hc
      obtain ⟨r1, hr1, hcr1⟩ := hstep.2.1 c hc
      obtain ⟨r2, hr2, hr12⟩ := hih.2.1 r1 hr1
      exact ⟨r2, hr2, le_trans hcr1 hr12⟩
    · intro m' hm' i h0
      rcases List.mem_cons.1 hm' with rfl | hm'
      · obtain ⟨r1, hr1, h1⟩ := hstep.2.2 i h0
        obtain ⟨r2, hr2, hr12⟩ := hih.2.1 r1 hr1
        exact ⟨r2, hr2, by omega⟩
      · exact hih.2.2 m' hm' i h0

lemma lastBreakIndex_spec (buf : Str) :
    (∀ e, lastBreakIndex buf = some e →
      IsEnd buf e ∧ ∀ e', IsEnd buf e' → e' ≤ e) ∧
    (lastBreakIndex buf = none → ∀ e, ¬ IsEnd buf e) := by
  have hfold := bpFoldAux_spec buf breakPoints none
    (fun m hm => hm) (fun c hc => by cases hc)
  constructor
  · intro e he
    refine ⟨hfold.1 e he, ?_⟩
    intro e' he'
    obtain ⟨bp, hbp, i, hocc, hend⟩ := he'
    obtain ⟨r, hr, hle⟩ := hfold.2.2 bp hbp i hocc
    rw [show lastBreakIndex buf = breakPoints.foldl (bpStep buf) none from rfl] at he
    rw [he] at hr
    injection hr with hr
    omega
  · intro hnone e he
    obtain ⟨bp, hbp, i, hocc, hend⟩ := he
    obtain ⟨r, hr, _⟩ := hfold.2.2 bp hbp i hocc
    rw [show lastBreakIndex buf = breakPoints.foldl (bpStep buf) none from rfl] at hnone
    rw [hnone] at hr
    cases hr

lemma occursAt_of_drop {bp buf : Str} {n j : Nat} (hlen : 0 < bp.length)
    (h : occursAt bp (buf.drop n) j) : occursAt bp buf (n + j) := by
  obtain ⟨ht, hf⟩ := h
  rw [List.length_drop] at hf
  refine ⟨?_, by omega⟩
  rw [← List.drop_drop]
  exact ht


end TextDisplayManager

namespace AgentManager

/-- After any prefix of actions followed by an interrupt, the flag is set. -/
lemma runTrace_interrupt_flag (pre : List RunAction) :
    (runTrace (pre ++ [RunAction.interrupt])).1 = true := by
  unfold runTrace
  rw [List.foldl_append]
  rfl

lemma foldl_runStep_content_only (post : List RunAction) (out : List AgentEvent)
    (hpost : ∀ a ∈ post, ∃ e, a = RunAction.nextEv e) :
    post.foldl runStep (true, out) = (true, out) := by
  induction post generalizing out with
  | nil => rfl
  | cons a rest ih =>
    obtain ⟨e, rfl⟩ := hpost a (List.mem_cons_self a rest)
    simp only [List.foldl_cons, runStep, onNextEvent, if_true, ite_true,
      List.append_nil]
    exact ih out (fun a ha => hpost a (List.mem_cons_of_mem _ ha))

end AgentManager

section Claims3

open TextDisplayManager TextWrapper AgentManager ResponseHandler

/-- C1 (counterexample): after `interruptSession` has set the flag, a
stream error still passes the synthetic `ERROR` event to `onEvent` —
the error handler does not check `isInterrupted`. -/
theorem interrupted_error_still_delivered :
    (runTrace [RunAction.interrupt]).1 = true ∧
    (runTrace [RunAction.interrupt]).2 = [] ∧
    (runTrace [RunAction.interrupt, RunAction.errEv "boom"]).2 =
      [AgentEvent.error "boom"] ∧
    (runTrace [RunAction.interrupt, RunAction.errEv "boom"]).2 ≠
      (runTrace [RunAction.interrupt]).2 := by
  decide

/-- C1 (amended): once the interrupted flag is set, no subsequently
delivered `next` event of the superseded run reaches `onEvent` — the flag
is checked per event at delivery time; only the synthetic error event
escapes this check. -/
theorem interrupted_blocks_content (pre post : List RunAction)
    (hpost : ∀ a ∈ post, ∃ e, a = RunAction.nextEv e) :
    (runTrace (pre ++ RunAction.interrupt :: post)).2 =
      (runTrace (pre ++ [RunAction.interrupt])).2 := by
  have h1 : pre ++ RunAction.interrupt :: post =
      (pre ++ [RunAction.interrupt]) ++ post := by simp
  rw [h1]
  unfold runTrace
  rw [List.foldl_append]
  have hflag : (runTrace (pre ++ [RunAction.interrupt])).1 = true :=
    runTrace_interrupt_flag pre
  unfold runTrace at hflag
  rcases hEq : (pre ++ [RunAction.interrupt]).foldl runStep (false, []) with ⟨flag, out⟩
  rw [hEq] at hflag
  simp only at hflag
  subst hflag
  rw [foldl_runStep_content_only post out hpost]

/-- Witness for the amended C1: an interrupt followed by two content
deltas delivers nothing further. -/
theorem interrupted_blocks_content_witness :
    (∀ a ∈ [RunAction.nextEv (AgentEvent.textMessageContent ['h', 'i']),
            RunAction.nextEv AgentEvent.textMessageEnd],
       ∃ e, a = RunAction.nextEv e) ∧
    (runTrace ([] ++ RunAction.interrupt ::
        [RunAction.nextEv (AgentEvent.textMessageContent ['h', 'i']),
         RunAction.nextEv AgentEvent.textMessageEnd])).2 =
      (runTrace ([] ++ [RunAction.interrupt])).2 :=
  ⟨(by
      intro a ha
      fin_cases ha
      · exact ⟨_, rfl⟩
      · exact ⟨_, rfl⟩),
   interrupted_blocks_content []
     [RunAction.nextEv (AgentEvent.textMessageContent ['h', 'i']),
      RunAction.nextEv AgentEvent.textMessageEnd]
     (by
      intro a ha
      fin_cases ha
      · exact ⟨_, rfl⟩
      · exact ⟨_, rfl⟩)⟩

end Claims3

section Claims

open TextDisplayManager TextWrapper AgentManager ResponseHandler

/-- C2: after `interruptDisplay(sessionId)` on a session with a display
state, the lines are empty, the raw buffer is empty, the cursor is 0,
`messageComplete`, `isPaused` and `isDisplaying` are false, and no
scheduled tick remains. -/
theorem interruptDisplay_resets (m : DMap) (sid : String) (s : DisplayState)
    (h : m sid = some s) :
    interruptDisplayM m sid sid = some (interruptDisplay s) ∧
    (interruptDisplay s).lines = [] ∧
    (interruptDisplay s).lineBuffer = [] ∧
    (interruptDisplay s).currentLinePosition = 0 ∧
    (interruptDisplay s).messageComplete = false ∧
    (interruptDisplay s).isPaused = false ∧
    (interruptDisplay s).isDisplaying = false ∧
    (interruptDisplay s).displayInterval = false := by
  unfold interruptDisplayM
  rw [h]
  simp [interruptDisplay, stopScrolling]

/-- Witness for C2 at a concrete scrolling state. -/
theorem interruptDisplay_resets_witness :
    mBusy "s1" = some stBusy ∧
    (interruptDisplayM mBusy "s1" "s1" = some (interruptDisplay stBusy) ∧
     (interruptDisplay stBusy).lines = [] ∧
     (interruptDisplay stBusy).lineBuffer = [] ∧
     (interruptDisplay stBusy).currentLinePosition = 0 ∧
     (interruptDisplay stBusy).messageComplete = false ∧
     (interruptDisplay stBusy).isPaused = false ∧
     (interruptDisplay stBusy).isDisplaying = false ∧
     (interruptDisplay stBusy).displayInterval = false) :=
  ⟨by decide, interruptDisplay_resets mBusy "s1" stBusy (by decide)⟩

/-- C6 (counterexample): wrapping the empty string does not yield zero
lines; at width 10 it yields exactly one line, the empty line. -/
theorem wrap_empty_not_zero_lines :
    splitIntoLines (wrapText [] 10) = [([] : Str)] ∧
    ([([] : Str)] : List Str) ≠ [] := by
  decide

/-- C6 (amended): wrapping the empty string at any positive width yields
exactly one line, the empty line. -/
theorem wrap_empty_one_blank (w : Nat) (hw : 0 < w) :
    splitIntoLines (wrapText [] w) = [[]] := by
  simp [wrapText, wrapLines, wrapLine, splitIntoLines, List.intercalate]

/-- Witness for the amended C6 at width 3. -/
theorem wrap_empty_one_blank_witness :
    0 < 3 ∧ splitIntoLines (wrapText [] 3) = [[]] :=
  ⟨by decide, wrap_empty_one_blank 3 (by decide)⟩

end Claims

section Claims2

open TextDisplayManager TextWrapper AgentManager ResponseHandler

/-- C3 (counterexample): a tick on `stBusy` with window height 4 is not
paused, not terminal (message incomplete), and not starved (cursor 2 <
5 lines), yet the cursor does not advance because the window's upper
bound (2 + 4) is already past the end of the 5 lines; a next tick is
still scheduled. -/
theorem scroll_no_advance_counterexample :
    stBusy.isPaused = false ∧
    ¬(stBusy.messageComplete = true ∧
      stBusy.lines.length ≤ stBusy.currentLinePosition + 4) ∧
    ¬(stBusy.lines.length ≤ stBusy.currentLinePosition ∧
      stBusy.messageComplete = false) ∧
    (scroll 4 stBusy).1.currentLinePosition = stBusy.currentLinePosition ∧
    (scroll 4 stBusy).2 = true := by
  decide

/-- C3 (amended): on a tick that is not paused, not terminal and not
starved, exactly one next tick is scheduled, and the cursor advances by
exactly one line if the window's upper bound is still short of the end of
`lines`, and stays put otherwise. -/
theorem scroll_tick_spec (h : Nat) (s : DisplayState)
    (hp : s.isPaused = false)
    (hterm : ¬(s.messageComplete = true ∧ s.lines.length ≤ s.currentLinePosition + h))
    (hstarve : ¬(s.lines.length ≤ s.currentLinePosition ∧ s.messageComplete = false)) :
    (scroll h s).2 = true ∧
    (scroll h s).1.currentLinePosition =
      (if s.currentLinePosition + h < s.lines.length then s.currentLinePosition + 1
       else s.currentLinePosition) := by
  unfold scroll
  simp only [hp]
  split_ifs with h1 h2 h3 <;> simp_all <;> omega

/-- Witness for the amended C3 at a concrete advancing state. -/
theorem scroll_tick_spec_witness :
    (stAdv.isPaused = false ∧
     ¬(stAdv.messageComplete = true ∧
       stAdv.lines.length ≤ stAdv.currentLinePosition + 4) ∧
     ¬(stAdv.lines.length ≤ stAdv.currentLinePosition ∧
       stAdv.messageComplete = false)) ∧
    ((scroll 4 stAdv).2 = true ∧
     (scroll 4 stAdv).1.currentLinePosition =
       (if stAdv.currentLinePosition + 4 < stAdv.lines.length
        then stAdv.currentLinePosition + 1 else stAdv.currentLinePosition)) :=
  ⟨⟨by decide, by decide, by decide⟩,
   scroll_tick_spec 4 stAdv (by decide) (by decide) (by decide)⟩

end Claims2

section Claims4

open TextDisplayManager TextWrapper AgentManager ResponseHandler

/-- C4: `isDisplayPaused` (reached through
`ResponseHandler.isTextDisplayPaused`) returns true exactly when the
session's display state exists and is paused, and the short-button-press
control uses its result to choose between resume and pause: when the
session is paused the press applies `resumeDisplay`, otherwise it applies
`pauseDisplay`.  The query itself is a pure function of the map and
modifies nothing. -/
theorem isDisplayPaused_spec (cfg : Config) (m : DMap) (sid : String) :
    (isTextDisplayPaused m sid = true ↔
      ∃ s, m sid = some s ∧ s.isPaused = true) ∧
    (∀ s, m sid = some s → s.isPaused = true →
      onShortButtonPress cfg m sid sid = some (resumeDisplay cfg s)) ∧
    (∀ s, m sid = some s → s.isPaused = false →
      onShortButtonPress cfg m sid sid = some (pauseDisplay s)) := by
  refine ⟨?_, ?_, ?_⟩
  · unfold isTextDisplayPaused isDisplayPaused
    cases h : m sid with
    | none => simp [h]
    | some s => simp [h]
  · intro s hs hp
    unfold onShortButtonPress isTextDisplayPaused isDisplayPaused
    rw [hs]
    simp only [hp, if_true, ite_true]
    unfold resumeTextDisplay resumeDisplayM
    rw [hs]
    simp
  · intro s hs hp
    unfold onShortButtonPress isTextDisplayPaused isDisplayPaused
    rw [hs]
    simp only [hp]
    unfold pauseTextDisplay pauseDisplayM
    rw [hs]
    simp

/-- Witness for C4: on a paused session, a short press resumes. -/
theorem isDisplayPaused_spec_witness :
    (mPaused "s1" = some { stBusy with isPaused := true, isDisplaying := false } ∧
     ({ stBusy with isPaused := true, isDisplaying := false } : DisplayState).isPaused = true) ∧
    onShortButtonPress ⟨30, true, 4⟩ mPaused "s1" "s1" =
      some (resumeDisplay ⟨30, true, 4⟩ { stBusy with isPaused := true, isDisplaying := false }) :=
  ⟨⟨by decide, by decide⟩,
   (isDisplayPaused_spec ⟨30, true, 4⟩ mPaused "s1").2.1
     { stBusy with isPaused := true, isDisplaying := false } (by decide) (by decide)⟩

end Claims4

section Claims5

open TextDisplayManager TextWrapper

/-- C5 (counterexample): with smart wrapping on, appending the single
chunk " " and completing the message leaves the raw buffer equal to " "
(not empty), flushes nothing, and loses the " " from the
extracted-plus-flushed concatenation: `completeMessage` only flushes when
the buffer's trimmed form is nonempty, and then does not clear a
whitespace-only buffer. -/
theorem completeMessage_whitespace_counterexample :
    (runChunks ⟨30, true, 4⟩ initState [[' ']]).2 = [] ∧
    (runChunks ⟨30, true, 4⟩ initState [[' ']]).1.lineBuffer = [' '] ∧
    (completeMessage ⟨30, true, 4⟩
      (runChunks ⟨30, true, 4⟩ initState [[' ']]).1).lineBuffer = [' '] ∧
    (completeMessage ⟨30, true, 4⟩
      (runChunks ⟨30, true, 4⟩ initState [[' ']]).1).lineBuffer ≠ [] ∧
    (completeMessage ⟨30, true, 4⟩
      (runChunks ⟨30, true, 4⟩ initState [[' ']]).1).lines = [[]] ∧
    (runChunks ⟨30, true, 4⟩ initState [[' ']]).2 ++ [] ≠
      List.flatten [[' ']] := by
  decide

/-- C5 (amended): for any sequence of `addTextChunk` calls from a fresh
session followed by one `completeMessage` (smart wrapping on or off),
provided the leftover buffer at completion is empty or not
whitespace-only, the concatenation of all extracted processable text with
the leftover buffer (which `completeMessage` then flushes) equals the
concatenation of all appended deltas; after `completeMessage` the raw
buffer is empty, exactly one blank spacer line has been appended after
the flushed lines, and `messageComplete` is true. -/
theorem append_flush_conservation (cfg : Config) (s0 : DisplayState)
    (ds : List Str) (h0 : s0.lineBuffer = [])
    (hfin : (runChunks cfg s0 ds).1.lineBuffer = [] ∨
      jsTrim (runChunks cfg s0 ds).1.lineBuffer ≠ []) :
    (runChunks cfg s0 ds).2 ++ (runChunks cfg s0 ds).1.lineBuffer =
      ds.flatten ∧
    (completeMessage cfg (runChunks cfg s0 ds).1).lineBuffer = [] ∧
    (completeMessage cfg (runChunks cfg s0 ds).1).lines =
      (runChunks cfg s0 ds).1.lines ++
        (if (runChunks cfg s0 ds).1.lineBuffer = [] then []
         else splitIntoLines
           (wrapText (runChunks cfg s0 ds).1.lineBuffer cfg.charsPerLine)) ++
        [[]] ∧
    (completeMessage cfg (runChunks cfg s0 ds).1).messageComplete = true := by
  have hcons := runChunks_conserve cfg ds s0
  rw [h0] at hcons
  simp only [List.nil_append] at hcons
  have hcm := completeMessage_spec cfg (runChunks cfg s0 ds).1 hfin
  exact ⟨hcons, hcm.1, hcm.2.1, hcm.2.2⟩

/-- Witness for the amended C5: two chunks "Hello. " and "world" at
width 30 with smart wrapping. -/
theorem append_flush_conservation_witness :
    ((initState : DisplayState).lineBuffer = [] ∧
     ((runChunks ⟨30, true, 4⟩ initState
        [['H','e','l','l','o','.',' '], ['w','o','r','l','d']]).1.lineBuffer = [] ∨
      jsTrim (runChunks ⟨30, true, 4⟩ initState
        [['H','e','l','l','o','.',' '], ['w','o','r','l','d']]).1.lineBuffer ≠ [])) ∧
    ((runChunks ⟨30, true, 4⟩ initState
        [['H','e','l','l','o','.',' '], ['w','o','r','l','d']]).2 ++
      (runChunks ⟨30, true, 4⟩ initState
        [['H','e','l','l','o','.',' '], ['w','o','r','l','d']]).1.lineBuffer =
      List.flatten [['H','e','l','l','o','.',' '], ['w','o','r','l','d']] ∧
     (completeMessage ⟨30, true, 4⟩ (runChunks ⟨30, true, 4⟩ initState
        [['H','e','l','l','o','.',' '], ['w','o','r','l','d']]).1).lineBuffer = [] ∧
     (completeMessage ⟨30, true, 4⟩ (runChunks ⟨30, true, 4⟩ initState
        [['H','e','l','l','o','.',' '], ['w','o','r','l','d']]).1).lines =
      (runChunks ⟨30, true, 4⟩ initState
        [['H','e','l','l','o','.',' '], ['w','o','r','l','d']]).1.lines ++
        (if (runChunks ⟨30, true, 4⟩ initState
              [['H','e','l','l','o','.',' '], ['w','o','r','l','d']]).1.lineBuffer = []
         then []
         else splitIntoLines
           (wrapText (runChunks ⟨30, true, 4⟩ initState
              [['H','e','l','l','o','.',' '], ['w','o','r','l','d']]).1.lineBuffer 30)) ++
        [[]] ∧
     (completeMessage ⟨30, true, 4⟩ (runChunks ⟨30, true, 4⟩ initState
        [['H','e','l','l','o','.',' '], ['w','o','r','l','d']]).1).messageComplete = true) :=
  ⟨⟨by decide, by decide⟩,
   append_flush_conservation ⟨30, true, 4⟩ initState
     [['H','e','l','l','o','.',' '], ['w','o','r','l','d']] (by decide) (by decide)⟩

end Claims5

section Claims7

open TextDisplayManager

/-- C7: in smart-wrapping mode, if at least one break-point marker occurs
in the buffer, the extracted processable text is exactly the prefix up to
and including the latest-ending marker occurrence, and the retained
remainder contains no marker occurrence; if no marker occurs and the
buffer is longer than twice the configured line width, the whole buffer is
extracted; otherwise nothing is extracted and the buffer is unchanged. -/
theorem extractProcessableText_smart_spec (w : Nat) (buf : Str) :
    (∀ e0, IsEnd buf e0 →
      ∃ e, IsEnd buf e ∧ (∀ e', IsEnd buf e' → e' ≤ e) ∧
        extractProcessableText true w buf =
          (buf.take (e + 1), buf.drop (e + 1)) ∧
        (∀ bp ∈ breakPoints, ∀ j, ¬ occursAt bp (buf.drop (e + 1)) j)) ∧
    ((∀ e, ¬ IsEnd buf e) → w * 2 < buf.length →
      extractProcessableText true w buf = (buf, [])) ∧
    ((∀ e, ¬ IsEnd buf e) → buf.length ≤ w * 2 →
      extractProcessableText true w buf = ([], buf)) := by
  have hspec := lastBreakIndex_spec buf
  refine ⟨?_, ?_, ?_⟩
  · intro e0 he0
    cases hlb : lastBreakIndex buf with
    | none => exact absurd he0 (hspec.2 hlb e0)
    | some e =>
      have hmax := hspec.1 e hlb
      refine ⟨e, hmax.1, hmax.2, ?_, ?_⟩
      · simp only [extractProcessableText, hlb]
        rfl
      · intro bp hbp j hocc
        have hlen := breakPoints_len_pos bp hbp
        have hocc' : occursAt bp buf (e + 1 + j) :=
          occursAt_of_drop hlen hocc
        have : IsEnd buf (e + 1 + j + bp.length - 1) :=
          ⟨bp, hbp, e + 1 + j, hocc', by omega⟩
        have := hmax.2 _ this
        omega
  · intro hno hlong
    cases hlb : lastBreakIndex buf with
    | none =>
      simp only [extractProcessableText, hlb]
      simp [hlong]
    | some e => exact absurd (hspec.1 e hlb).1 (hno e)
  · intro hno hshort
    cases hlb : lastBreakIndex buf with
    | none =>
      have hnl : ¬ w * 2 < buf.length := by omega
      simp only [extractProcessableText, hlb]
      simp [hnl]
    | some e => exact absurd (hspec.1 e hlb).1 (hno e)

/-- Witness for C7 at the buffer "a, b": the marker ", " ends at index 2,
the extracted prefix is "a, " and the remainder "b" is marker-free. -/
theorem extractProcessableText_smart_spec_witness :
    IsEnd ['a', ',', ' ', 'b'] 2 ∧
    (∃ e, IsEnd ['a', ',', ' ', 'b'] e ∧
      (∀ e', IsEnd ['a', ',', ' ', 'b'] e' → e' ≤ e) ∧
      extractProcessableText true 30 ['a', ',', ' ', 'b'] =
        (List.take (e + 1) ['a', ',', ' ', 'b'],
         List.drop (e + 1) ['a', ',', ' ', 'b']) ∧
      (∀ bp ∈ breakPoints, ∀ j,
        ¬ occursAt bp (List.drop (e + 1) ['a', ',', ' ', 'b']) j)) :=
  ⟨⟨[',', ' '], by decide, 1, by decide, by decide⟩,
   (extractProcessableText_smart_spec 30 ['a', ',', ' ', 'b']).1 2
     ⟨[',', ' '], by decide, 1, by decide, by decide⟩⟩

end Claims7

section Claims8

open TextWrapper

/-- C8: for every input text and width w > 0, every line produced by the
wrapper has length at most w, and hard-splitting a single word longer
than w yields fragments that are each exactly w characters long except
the final remainder, which is at most w; for a space-free, newline-free
word those fragments (with the remainder) are exactly the produced
lines. -/
theorem wrapText_line_bound (w : Nat) (text word : Str) (hw : 0 < w)
    (hword : w < word.length) :
    (∀ l ∈ wrapLines text w, l.length ≤ w) ∧
    ((∀ f ∈ (hardSplit w word).1, f.length = w) ∧
     (hardSplit w word).2.length ≤ w) ∧
    (' ' ∉ word → '\n' ∉ word →
      wrapLines word w = (hardSplit w word).1 ++ [(hardSplit w word).2]) := by
  refine ⟨wrapLines_width w hw text, hardSplit_spec w hw word, ?_⟩
  intro hsp hnl
  exact wrapLines_single_long_word w hw word hsp hnl hword

/-- Witness for C8 at width 5 with text "hello world" and the long word
"abcdefghij". -/
theorem wrapText_line_bound_witness :
    (0 < 5 ∧ 5 < (['a','b','c','d','e','f','g','h','i','j'] : Str).length) ∧
    ((∀ l ∈ wrapLines ['h','e','l','l','o',' ','w','o','r','l','d'] 5, l.length ≤ 5) ∧
     ((∀ f ∈ (hardSplit 5 ['a','b','c','d','e','f','g','h','i','j']).1, f.length = 5) ∧
      (hardSplit 5 ['a','b','c','d','e','f','g','h','i','j']).2.length ≤ 5) ∧
     (' ' ∉ (['a','b','c','d','e','f','g','h','i','j'] : Str) →
      '\n' ∉ (['a','b','c','d','e','f','g','h','i','j'] : Str) →
      wrapLines ['a','b','c','d','e','f','g','h','i','j'] 5 =
        (hardSplit 5 ['a','b','c','d','e','f','g','h','i','j']).1 ++
          [(hardSplit 5 ['a','b','c','d','e','f','g','h','i','j']).2])) :=
  ⟨⟨by decide, by decide⟩,
   wrapText_line_bound 5 ['h','e','l','l','o',' ','w','o','r','l','d']
     ['a','b','c','d','e','f','g','h','i','j'] (by decide) (by decide)⟩

end Claims8

section Claims9

open TextWrapper

/-- C9: wrapping is a fixed point after one pass: re-joining the wrapped
output with newlines and re-wrapping at the same positive width returns
the identical string, hence the identical sequence of lines. -/
theorem wrapText_idempotent (t : Str) (w : Nat) (hw : 0 < w) :
    wrapText (wrapText t w) w = wrapText t w ∧
    splitIntoLines (wrapText (wrapText t w) w) = splitIntoLines (wrapText t w) := by
  have h : wrapText (wrapText t w) w = wrapText t w := by
    by_cases hne : wrapLines t w = []
    · have h1 : wrapText t w = [] := by rw [wrapText, hne]; rfl
      rw [h1]
      show ['\n'].intercalate (wrapLines [] w) = []
      have h2 : wrapLines [] w = [[]] := by
        simp [wrapLines, wrapLine]
      rw [h2]
      rfl
    · rw [wrapText, wrapLines_wrapText_ne_nil w hw t hne, wrapText]
  exact ⟨h, by rw [h]⟩

/-- Witness for C9 on a concrete input at width 4. -/
theorem wrapText_idempotent_witness :
    0 < 4 ∧
    (wrapText (wrapText ['a','b',' ','c','d','e','f',' ','g'] 4) 4 =
      wrapText ['a','b',' ','c','d','e','f',' ','g'] 4 ∧
     splitIntoLines (wrapText (wrapText ['a','b',' ','c','d','e','f',' ','g'] 4) 4) =
      splitIntoLines (wrapText ['a','b',' ','c','d','e','f',' ','g'] 4)) :=
  ⟨by decide, wrapText_idempotent ['a','b',' ','c','d','e','f',' ','g'] 4 (by decide)⟩

end Claims9

section Claims10

open TextDisplayManager

/-- C10: for every session with fixed window height h ≥ 1, every display
state reachable by any sequence of addTextChunk, completeMessage,
pauseDisplay, resumeDisplay, interruptDisplay operations and scroll ticks
satisfies cursor = 0 or cursor + h ≤ len(lines); in particular
cursor ≤ len(lines), so the cursor never advances past the position at
which the window's upper bound first reaches the end of lines. -/
theorem reachable_cursor_invariant (h : Nat) (s : DisplayState)
    (hh : 1 ≤ h) (hr : Reach h s) :
    (s.currentLinePosition = 0 ∨ s.currentLinePosition + h ≤ s.lines.length) ∧
    s.currentLinePosition ≤ s.lines.length := by
  have hinv := reach_cursorInv h s hr
  unfold CursorInv at hinv
  exact ⟨hinv, by rcases hinv with h0 | hle <;> omega⟩

/-- Witness for C10 at h = 1 and the initial state. -/
theorem reachable_cursor_invariant_witness :
    1 ≤ 1 ∧
    ((initState.currentLinePosition = 0 ∨
      initState.currentLinePosition + 1 ≤ initState.lines.length) ∧
     initState.currentLinePosition ≤ initState.lines.length) :=
  ⟨by decide, reachable_cursor_invariant 1 initState (by decide) Reach.init⟩

end Claims10
